import Mathlib

/-!
Verification of the envresolve resolution engine against its specification.

The development shallowly embeds the core of the repository:

* `expand_variables` (src/envresolve/services/expansion.py): recursive
  `$\x7bNAME\x7d` / `$NAME` substitution with cycle detection.  The Python
  function recurses through `re.sub`; here the scan of one string is the
  structural function `expandToksWith` over the tokenization of the text,
  and the recursion into variable values is driven by a depth counter
  `expandD` that the theorem `c6_termination_depth_bound` proves large
  enough (the Python recursion depth is bounded by the number of distinct
  unvisited names, which is exactly the fuel supplied).
* the exception data of src/envresolve/exceptions.py,
* `is_secret_uri` / `parse_secret_uri` (src/envresolve/services/reference.py
  is absent from the snapshot; both are modelled from the specification and
  the unit tests that pin their behaviour),
* `SecretResolver.resolve` (src/envresolve/application/resolver.py),
  instrumented with the list of provider invocations it performs.
-/

namespace EnvResolve

/-- Environment mapping: Python `dict[str, str]`, as an association list. -/
abbrev Env := List (String × String)

/-- Exact-key lookup in a string-keyed table, mirroring Python `d[k]` /
`k in d` on a dict whose insertion order is the list order. -/
def lookupStr {α : Type} : List (String × α) → String → Option α
  | [], _ => none
  | (k, v) :: rest, key => if key = k then some v else lookupStr rest key

/-- Data of `CircularReferenceError` / `VariableNotFoundError`
(src/envresolve/exceptions.py): the circular error stores the offending
variable name and a chain list (which defaults to `[]`), the not-found
error stores the missing name. -/
inductive ExpandError
  | circular (variable_name : String) (chain : List String)
  | notFound (variable_name : String)
deriving Repr, DecidableEq

instance {e a : Type} [DecidableEq e] [DecidableEq a] : DecidableEq (Except e a) := fun x y =>
  match x, y with
  | .ok v, .ok w => if h : v = w then .isTrue (by rw [h]) else .isFalse (by simp [h])
  | .error v, .error w => if h : v = w then .isTrue (by rw [h]) else .isFalse (by simp [h])
  | .ok _, .error _ => .isFalse (by simp)
  | .error _, .ok _ => .isFalse (by simp)

/-- Message built by `CircularReferenceError.__init__`:
`" -> "`-joined chain when the chain is non-empty, else the variable name,
behind the fixed prefix text. -/
def circularMessage (variable_name : String) (chain : List String) : String :=
  "Circular reference detected: " ++
    (if chain = [] then variable_name else String.intercalate " -> " chain)

/-- `[A-Za-z_]`, the first character of a bare `$NAME` reference. -/
def isIdentStart (c : Char) : Bool := c.isAlpha || c = '_'

/-- `[A-Za-z0-9_]`, the remaining characters of a bare `$NAME` reference. -/
def isIdentChar (c : Char) : Bool := c.isAlphanum || c = '_'

/-- One attempt of the regex `\$\\\x7b([^\x7d]+)\\\x7d|\$([A-Za-z_][A-Za-z0-9_]*)`
at the head of the character list: the braced alternative needs at least one
non-brace character and a closing brace, otherwise the bare alternative
requires an identifier immediately after the dollar.  Returns the captured
name and the suffix after the match. -/
def matchToken : List Char → Option (String × List Char)
  | '$' :: '\x7b' :: rest =>
    match rest.dropWhile (fun c => c ≠ '\x7d') with
    | '\x7d' :: after =>
      match rest.takeWhile (fun c => c ≠ '\x7d') with
      | [] => none
      | inner => some (String.mk inner, after)
    | _ => none
  | '$' :: c :: rest =>
    if isIdentStart c then
      some (String.mk (c :: rest.takeWhile isIdentChar), rest.dropWhile isIdentChar)
    else none
  | _ => none

/-- A piece of the scanned text: a literal character, or a matched
variable-reference token with its captured name. -/
inductive Tok
  | lit (c : Char)
  | ref (name : String)
deriving Repr, DecidableEq

/-- Left-to-right non-overlapping scan of `re.sub`, with enough fuel
(`tokenize` supplies the list length, which `tokenizeF_fuel` shows is
always sufficient). -/
def tokenizeF : Nat → List Char → List Tok
  | 0, _ => []
  | _ + 1, [] => []
  | fuel + 1, c :: rest =>
    match matchToken (c :: rest) with
    | some (name, after) => .ref name :: tokenizeF fuel after
    | none => .lit c :: tokenizeF fuel rest

/-- The token decomposition of a character list. -/
def tokenize (cs : List Char) : List Tok := tokenizeF cs.length cs

/-- The body of one `expand_variables` call, given `rec`, the behaviour of
the nested `expand_variables(value, env, new_visited)` call: for each
matched token, check the visited set, look the name up, recurse into its
value with the name added, and splice the result; literal characters are
copied.  Errors propagate from the leftmost failing token, as exceptions do
through `re.sub`. -/
def expandToksWith (env : Env)
    (rec : String → List String → Option (Except ExpandError (List Char))) :
    List Tok → List String → Option (Except ExpandError (List Char))
  | [], _ => some (.ok [])
  | .lit c :: toks, visited =>
    match expandToksWith env rec toks visited with
    | none => none
    | some (.error e) => some (.error e)
    | some (.ok tailCs) => some (.ok (c :: tailCs))
  | .ref name :: toks, visited =>
    if name ∈ visited then some (.error (.circular name []))
    else
      match lookupStr env name with
      | none => some (.error (.notFound name))
      | some value =>
        match rec value (name :: visited) with
        | none => none
        | some (.error e) => some (.error e)
        | some (.ok replaced) =>
          match expandToksWith env rec toks visited with
          | none => none
          | some (.error e) => some (.error e)
          | some (.ok tailCs) => some (.ok (replaced ++ tailCs))

/-- `expand_variables` at an explicit recursion depth `d`: each nesting into
a variable's value consumes one unit.  `none` means the depth was exhausted;
`c6_termination_depth_bound` proves that the depth used by
`expand_variables` below never is. -/
def expandD (env : Env) : Nat → String → List String → Option (Except ExpandError (List Char))
  | 0, _, _ => none
  | d + 1, text, visited =>
    expandToksWith env (fun v vs => expandD env d v vs) (tokenize text.toList) visited

/-- The distinct keys of the environment, in first-occurrence order. -/
def dedupKeys : List String → List String
  | [] => []
  | k :: rest => if k ∈ dedupKeys rest then dedupKeys rest else k :: dedupKeys rest

/-- Number of distinct environment keys not yet in the visited set: the
bound on the recursion depth of `expand_variables`. -/
def unvisitedCount (env : Env) (visited : List String) : Nat :=
  ((dedupKeys (env.map Prod.fst)).filter (fun k => decide (¬ k ∈ visited))).length

/-- `expand_variables(text, env, visited)` of
src/envresolve/services/expansion.py.  The depth supplied to `expandD` is
one more than the number of distinct unvisited names, which
`expandD_isSome` proves sufficient, so the `none` fallback (returning the
input) is never taken. -/
def expand_variables (text : String) (env : Env) (visited : List String) :
    Except ExpandError String :=
  match expandD env (unvisitedCount env visited + 1) text visited with
  | some (.ok cs) => .ok (String.mk cs)
  | some (.error e) => .error e
  | none => .ok text

/-- A string with no variable-reference token: the scan sees only literal
characters. -/
def noToken (s : String) : Prop := tokenize s.toList = s.toList.map Tok.lit

instance : DecidablePred noToken := fun s => by
  unfold noToken
  infer_instance

/-- Modelled from the spec: `ParsedURI` of the absent src/envresolve/models.py,
the immutable record `\x7bscheme, vault, secret, version\x7d` produced by the
URI parser (§3 of the spec; shape pinned by tests/unit/services/test_reference.py). -/
structure ParsedURI where
  scheme : String
  vault : String
  secret : String
  version : Option String
deriving Repr, DecidableEq

/-- Errors surfacing from `SecretResolver.resolve`: propagated expansion
errors, `URIParseError` (message, offending URI), `SecretResolutionError`
(message, URI) and an opaque provider-specific failure. -/
inductive ResolveError
  | expansion (e : ExpandError)
  | uriParse (msg : String) (uri : String)
  | resolution (msg : String) (uri : String)
  | provider (msg : String)
deriving Repr, DecidableEq

/-- Modelled from the spec: `is_secret_uri` of the absent
src/envresolve/services/reference.py.  True iff the scheme component is the
single supported scheme `akv` (§4.2: "returns true iff the string's scheme
component matches the supported scheme"; tests/unit/services/test_reference.py). -/
def is_secret_uri (text : String) : Bool :=
  decide (text.toList.take 6 = "akv://".toList)

/-- Modelled from the spec: `parse_secret_uri` of the absent
src/envresolve/services/reference.py.  Grammar (§4.2):
`<scheme>://<vault>/<secret>[?version=<version>]` with non-empty vault and
secret segments; failures name the offending component. -/
def parse_secret_uri (text : String) : Except ResolveError ParsedURI :=
  if is_secret_uri text then
    let rest := text.toList.drop 6
    match rest.takeWhile (fun c => c ≠ '/'), rest.dropWhile (fun c => c ≠ '/') with
    | [], _ => .error (.uriParse "Invalid secret URI: missing vault" text)
    | vaultCs, '/' :: secretRest =>
      match secretRest.takeWhile (fun c => c ≠ '?') with
      | [] => .error (.uriParse "Invalid secret URI: missing secret" text)
      | secretCs =>
        let version :=
          match secretRest.dropWhile (fun c => c ≠ '?') with
          | '?' :: q =>
            if q.take 8 = "version=".toList then some (String.mk (q.drop 8)) else none
          | _ => none
        .ok ⟨"akv", String.mk vaultCs, String.mk secretCs, version⟩
    | _, _ => .error (.uriParse "Invalid secret URI: missing secret" text)
  else .error (.uriParse ("Unsupported URI scheme: " ++ text) text)

/-- Modelled from the spec: the Provider Capability (§6) consumed by the
orchestrator — one operation from a parsed reference to a literal value,
which may fail with a provider-specific error. -/
def SecretProvider : Type := ParsedURI → Except String String

namespace SecretResolver

/-- `SecretResolver._get_provider` (src/envresolve/application/resolver.py):
look the parsed scheme up in the registry; when absent, fail with a
`SecretResolutionError` whose message names the unregistered scheme and
whose URI field is the scheme followed by `://...`. -/
def _get_provider (providers : List (String × SecretProvider)) (parsed_uri : ParsedURI) :
    Except ResolveError SecretProvider :=
  match lookupStr providers parsed_uri.scheme with
  | none =>
    .error (.resolution ("No provider registered for scheme \x27" ++ parsed_uri.scheme ++ "\x27")
      (parsed_uri.scheme ++ "://..."))
  | some p => .ok p

/-- `SecretResolver.resolve` (src/envresolve/application/resolver.py),
instrumented with the list of provider invocations (second component):
expand variables, return the expansion as-is unless it is a secret URI,
otherwise parse it, fetch the provider for its scheme and invoke it once on
the parsed reference. -/
def resolveT (providers : List (String × SecretProvider)) (uri : String) (env : Env) :
    Except ResolveError String × List ParsedURI :=
  match expand_variables uri env [] with
  | .error e => (.error (.expansion e), [])
  | .ok expanded =>
    if is_secret_uri expanded then
      match parse_secret_uri expanded with
      | .error e => (.error e, [])
      | .ok parsed_uri =>
        match _get_provider providers parsed_uri with
        | .error e => (.error e, [])
        | .ok p =>
          match p parsed_uri with
          | .error pe => (.error (.provider pe), [parsed_uri])
          | .ok value => (.ok value, [parsed_uri])
    else (.ok expanded, [])

/-- The return value of `SecretResolver.resolve`, without the invocation trace. -/
def resolve (providers : List (String × SecretProvider)) (uri : String) (env : Env) :
    Except ResolveError String :=
  (resolveT providers uri env).1

end SecretResolver

/-- The provider of unit test `test_resolver_uri_to_uri_resolution`
(tests/unit/test_resolver.py): secret `indirect` holds the reference
`akv://vault2/actual` (vault name as in the e2e variant of the test) and
secret `actual` holds the final literal. -/
def chainProvider : SecretProvider := fun p =>
  .ok (if p.secret = "indirect" then "akv://vault2/actual"
       else if p.secret = "actual" then "final" else "")

/-- The provider of unit test `test_resolver_circular_reference_detection`
(tests/unit/test_resolver.py): secrets `secret1` and `secret2` hold each
other's references. -/
def cycleProvider : SecretProvider := fun p =>
  .ok (if p.secret = "secret1" then "akv://vault/secret2"
       else if p.secret = "secret2" then "akv://vault/secret1" else "")

/-! Helper lemmas about the scanner. -/

theorem dropWhile_length_le {α : Type} (p : α → Bool) :
    ∀ l : List α, (l.dropWhile p).length ≤ l.length := by
  intro l
  induction l with
  | nil => simp [List.dropWhile]
  | cons a l ih =>
    simp only [List.dropWhile]
    cases p a with
    | true => exact Nat.le_trans ih (Nat.le_succ _)
    | false => exact Nat.le_refl _

theorem matchToken_dollar {cs : List Char} {x : String × List Char}
    (h : matchToken cs = some x) : ∃ t, cs = '$' :: t := by
  rw [matchToken.eq_def] at h
  split at h
  · exact ⟨_, rfl⟩
  · exact ⟨_, rfl⟩
  · exact absurd h (by simp)

theorem matchToken_shrink {cs : List Char} {name : String} {after : List Char}
    (h : matchToken cs = some (name, after)) : after.length < cs.length := by
  rw [matchToken.eq_def] at h
  split at h
  · rename_i rest
    split at h
    · rename_i after' heq
      split at h
      · exact absurd h (by simp)
      · cases h
        have h1 : after.length + 1 ≤ rest.length := by
          have := dropWhile_length_le (fun c => decide (c ≠ '\x7d')) rest
          rw [heq] at this
          simpa using this
        simp only [List.length_cons]
        omega
    · exact absurd h (by simp)
  · rename_i c rest _
    split at h
    · cases h
      have := dropWhile_length_le isIdentChar rest
      simp only [List.length_cons]
      omega
    · exact absurd h (by simp)
  · exact absurd h (by simp)

theorem tokenizeF_fuel : ∀ (f g : Nat) (cs : List Char),
    cs.length ≤ f → cs.length ≤ g → tokenizeF f cs = tokenizeF g cs := by
  intro f
  induction f with
  | zero =>
    intro g cs hf _
    have : cs = [] := List.length_eq_zero.mp (Nat.le_zero.mp hf)
    subst this
    cases g <;> rfl
  | succ f ih =>
    intro g cs hf hg
    cases cs with
    | nil => cases g <;> rfl
    | cons c rest =>
      cases g with
      | zero => simp at hg
      | succ g =>
        cases h : matchToken (c :: rest) with
        | some x =>
          obtain ⟨n, after⟩ := x
          have hlt := matchToken_shrink h
          simp only [List.length_cons] at hf hg hlt
          simp only [tokenizeF, h]
          rw [ih g after (by omega) (by omega)]
        | none =>
          simp only [List.length_cons] at hf hg
          simp only [tokenizeF, h]
          rw [ih g rest (by omega) (by omega)]

theorem tokenize_cons_match {c : Char} {rest : List Char} {name : String} {after : List Char}
    (h : matchToken (c :: rest) = some (name, after)) :
    tokenize (c :: rest) = .ref name :: tokenize after := by
  have hlt := matchToken_shrink h
  simp only [List.length_cons] at hlt
  unfold tokenize
  simp only [List.length_cons, tokenizeF, h]
  rw [tokenizeF_fuel rest.length after.length after (by omega) (Nat.le_refl _)]

theorem tokenize_cons_none {c : Char} {rest : List Char}
    (h : matchToken (c :: rest) = none) :
    tokenize (c :: rest) = .lit c :: tokenize rest := by
  unfold tokenize
  simp only [List.length_cons, tokenizeF, h]

theorem tokenize_no_dollar : ∀ cs : List Char, ¬ '$' ∈ cs → tokenize cs = cs.map Tok.lit := by
  intro cs
  induction cs with
  | nil => intro _; rfl
  | cons c rest ih =>
    intro hnd
    have hc : c ≠ '$' := by
      intro h
      exact hnd (h ▸ List.mem_cons_self c rest)
    cases h : matchToken (c :: rest) with
    | some x =>
      obtain ⟨t, ht⟩ := matchToken_dollar h
      cases ht
      simp at hc
    | none =>
      rw [tokenize_cons_none h, ih (fun hm => hnd (List.mem_cons_of_mem c hm))]
      rfl

theorem expandToksWith_lits (env : Env)
    (rec : String → List String → Option (Except ExpandError (List Char))) :
    ∀ (cs : List Char) (visited : List String),
      expandToksWith env rec (cs.map Tok.lit) visited = some (.ok cs) := by
  intro cs
  induction cs with
  | nil => intro _; rfl
  | cons c rest ih =>
    intro visited
    simp only [List.map_cons, expandToksWith, ih]

theorem expandD_noToken {env : Env} {d : Nat} (hd : 1 ≤ d) {s : String}
    (hs : noToken s) (visited : List String) :
    expandD env d s visited = some (.ok s.toList) := by
  cases d with
  | zero => omega
  | succ d =>
    simp only [expandD]
    rw [hs, expandToksWith_lits]

theorem expand_variables_noToken {s : String} (hs : noToken s) (env : Env)
    (visited : List String) : expand_variables s env visited = .ok s := by
  unfold expand_variables
  rw [expandD_noToken (Nat.succ_le_succ (Nat.zero_le _)) hs]
  rfl

/-! The recursion-depth bound. -/

theorem lookupStr_mem {α : Type} {v : α} :
    ∀ {l : List (String × α)} {k : String}, lookupStr l k = some v → k ∈ l.map Prod.fst := by
  intro l
  induction l with
  | nil => intro k h; simp [lookupStr] at h
  | cons p rest ih =>
    intro k h
    obtain ⟨k', v'⟩ := p
    simp only [lookupStr] at h
    split at h
    · rename_i heq
      simp [heq]
    · exact List.mem_cons_of_mem _ (ih h)

theorem mem_dedupKeys {a : String} : ∀ {l : List String}, a ∈ dedupKeys l ↔ a ∈ l := by
  intro l
  induction l with
  | nil => simp [dedupKeys]
  | cons k rest ih =>
    simp only [dedupKeys]
    split
    · rename_i hk
      simp only [List.mem_cons]
      constructor
      · intro h; exact Or.inr (ih.mp h)
      · rintro (h | h)
        · exact h ▸ hk
        · exact ih.mpr h
    · simp only [List.mem_cons]
      constructor
      · rintro (h | h)
        · exact Or.inl h
        · exact Or.inr (ih.mp h)
      · rintro (h | h)
        · exact Or.inl h
        · exact Or.inr (ih.mpr h)

theorem filter_length_mono {α : Type} {p q : α → Bool}
    (hpq : ∀ a, q a = true → p a = true) :
    ∀ l : List α, (l.filter q).length ≤ (l.filter p).length := by
  intro l
  induction l with
  | nil => simp
  | cons a rest ih =>
    simp only [List.filter]
    cases hq : q a with
    | true =>
      rw [hpq a hq]
      simpa using ih
    | false =>
      cases p a with
      | true => simp only [List.length_cons]; omega
      | false => exact ih

theorem filter_unvisited_decrease {name : String} {visited : List String} :
    ∀ L : List String, name ∈ L → ¬ name ∈ visited →
      (L.filter (fun k => decide (¬ k ∈ name :: visited))).length <
      (L.filter (fun k => decide (¬ k ∈ visited))).length := by
  intro L
  induction L with
  | nil => intro h _; simp at h
  | cons k rest ih =>
    intro hmem hnv
    by_cases hk : k = name
    · subst hk
      have h1 : (fun k => decide (¬ k ∈ k :: visited)) k = false := by simp
      have h2 : (fun k' => decide (¬ k' ∈ visited)) k = true := by simpa using hnv
      simp only [List.filter, h1, h2, List.length_cons]
      have := filter_length_mono
        (p := fun k' => decide (¬ k' ∈ visited))
        (q := fun k' => decide (¬ k' ∈ k :: visited))
        (by
          intro a ha
          simp only [decide_eq_true_eq, List.mem_cons] at ha ⊢
          exact fun hv => ha (Or.inr hv)) rest
      omega
    · have hmem' : name ∈ rest := by
        rcases List.mem_cons.mp hmem with h | h
        · exact absurd h.symm hk
        · exact h
      have hsame : (decide (¬ k ∈ name :: visited)) = (decide (¬ k ∈ visited)) := by
        simp only [List.mem_cons]
        by_cases hv : k ∈ visited
        · simp [hv]
        · simp [hv, hk]
      simp only [List.filter, hsame]
      cases decide (¬ k ∈ visited) with
      | true =>
        simp only [List.length_cons]
        exact Nat.succ_lt_succ (ih hmem' hnv)
      | false => exact ih hmem' hnv

theorem unvisitedCount_decrease {env : Env} {name value : String} {visited : List String}
    (hl : lookupStr env name = some value) (hnv : ¬ name ∈ visited) :
    unvisitedCount env (name :: visited) < unvisitedCount env visited :=
  filter_unvisited_decrease _ (mem_dedupKeys.mpr (lookupStr_mem hl)) hnv

theorem expandToksWith_ne_none {env : Env} {visited : List String}
    {rec : String → List String → Option (Except ExpandError (List Char))}
    (hrec : ∀ name value, lookupStr env name = some value → ¬ name ∈ visited →
      rec value (name :: visited) ≠ none) :
    ∀ toks, expandToksWith env rec toks visited ≠ none := by
  intro toks
  induction toks with
  | nil => simp [expandToksWith]
  | cons t toks ih =>
    cases t with
    | lit c =>
      simp only [expandToksWith]
      cases h : expandToksWith env rec toks visited with
      | none => exact absurd h ih
      | some r => cases r <;> simp
    | ref name =>
      simp only [expandToksWith]
      split
      · simp
      · rename_i hnv
        split
        · simp
        · rename_i value hl
          split
          · rename_i hr
            exact absurd hr (hrec name value hl hnv)
          · simp
          · rename_i replaced hr
            split
            · rename_i h
              exact absurd h ih
            · simp
            · simp

theorem expandD_isSome {env : Env} :
    ∀ (d : Nat) (text : String) (visited : List String),
      unvisitedCount env visited < d → expandD env d text visited ≠ none := by
  intro d
  induction d with
  | zero => intro text visited h; omega
  | succ d ih =>
    intro text visited h
    simp only [expandD]
    apply expandToksWith_ne_none
    intro name value hl hnv
    exact ih value (name :: visited)
      (Nat.lt_of_lt_of_le (unvisitedCount_decrease hl hnv) (Nat.le_of_lt_succ h))

theorem expandToksWith_ref_visited (env : Env)
    (rec : String → List String → Option (Except ExpandError (List Char)))
    {name : String} (toks : List Tok) {visited : List String} (hv : name ∈ visited) :
    expandToksWith env rec (.ref name :: toks) visited = some (.error (.circular name [])) := by
  simp only [expandToksWith]
  rw [if_pos hv]

theorem expandToksWith_ref_missing (env : Env)
    (rec : String → List String → Option (Except ExpandError (List Char)))
    {name : String} (toks : List Tok) {visited : List String}
    (hv : ¬ name ∈ visited) (hl : lookupStr env name = none) :
    expandToksWith env rec (.ref name :: toks) visited = some (.error (.notFound name)) := by
  simp only [expandToksWith]
  rw [if_neg hv, hl]

theorem expandToksWith_ref_some (env : Env)
    (rec : String → List String → Option (Except ExpandError (List Char)))
    {name value : String} (toks : List Tok) {visited : List String}
    (hv : ¬ name ∈ visited) (hl : lookupStr env name = some value) :
    expandToksWith env rec (.ref name :: toks) visited =
      match rec value (name :: visited) with
      | none => none
      | some (.error e) => some (.error e)
      | some (.ok replaced) =>
        match expandToksWith env rec toks visited with
        | none => none
        | some (.error e) => some (.error e)
        | some (.ok tailCs) => some (.ok (replaced ++ tailCs)) := by
  simp only [expandToksWith]
  rw [if_neg hv, hl]

theorem expandToksWith_mono {env : Env}
    {rec rec' : String → List String → Option (Except ExpandError (List Char))}
    (hmono : ∀ v vs r, rec v vs = some r → rec' v vs = some r) :
    ∀ (toks : List Tok) (visited : List String) (r : Except ExpandError (List Char)),
      expandToksWith env rec toks visited = some r →
      expandToksWith env rec' toks visited = some r := by
  intro toks
  induction toks with
  | nil => intro visited r h; exact h
  | cons t toks ih =>
    intro visited r h
    cases t with
    | lit c =>
      simp only [expandToksWith] at h ⊢
      split at h
      · exact absurd h (by simp)
      · rename_i e heq
        rw [ih _ _ heq]
        exact h
      · rename_i tailCs heq
        rw [ih _ _ heq]
        exact h
    | ref name =>
      by_cases hv : name ∈ visited
      · rw [expandToksWith_ref_visited env rec toks hv] at h
        rw [expandToksWith_ref_visited env rec' toks hv]
        exact h
      · cases hlk : lookupStr env name with
        | none =>
          rw [expandToksWith_ref_missing env rec toks hv hlk] at h
          rw [expandToksWith_ref_missing env rec' toks hv hlk]
          exact h
        | some value =>
          rw [expandToksWith_ref_some env rec toks hv hlk] at h
          rw [expandToksWith_ref_some env rec' toks hv hlk]
          split at h
          · exact absurd h (by simp)
          · rename_i e heq
            rw [hmono _ _ _ heq]
            exact h
          · rename_i replaced heq
            rw [hmono _ _ _ heq]
            split at h
            · exact absurd h (by simp)
            · rename_i e heq2
              rw [ih _ _ heq2]
              exact h
            · rename_i tailCs heq2
              rw [ih _ _ heq2]
              exact h

theorem expandD_mono {env : Env} :
    ∀ {d d' : Nat}, d ≤ d' → ∀ {text : String} {visited : List String}
      {r : Except ExpandError (List Char)},
      expandD env d text visited = some r → expandD env d' text visited = some r := by
  intro d
  induction d with
  | zero =>
    intro d' _ text visited r h
    exact absurd h (by simp [expandD])
  | succ d ih =>
    intro d' hdd text visited r h
    cases d' with
    | zero => omega
    | succ d' =>
      simp only [expandD] at h ⊢
      exact expandToksWith_mono (fun v vs r hr => ih (by omega) hr) _ _ _ h

theorem unvisitedCount_pos {env : Env} {name value : String} {visited : List String}
    (hl : lookupStr env name = some value) (hnv : ¬ name ∈ visited) :
    1 ≤ unvisitedCount env visited := by
  have hm : name ∈ (dedupKeys (env.map Prod.fst)).filter (fun k => decide (¬ k ∈ visited)) :=
    List.mem_filter.mpr ⟨mem_dedupKeys.mpr (lookupStr_mem hl), by simpa using hnv⟩
  have := List.length_pos.mpr (List.ne_nil_of_mem hm)
  simpa [unvisitedCount] using this

theorem expandToksWith_single_ref {env : Env}
    {rec : String → List String → Option (Except ExpandError (List Char))}
    {name value : String} {visited : List String}
    (hnv : ¬ name ∈ visited) (hl : lookupStr env name = some value) :
    expandToksWith env rec [.ref name] visited =
      match rec value (name :: visited) with
      | none => none
      | some (.error e) => some (.error e)
      | some (.ok replaced) => some (.ok (replaced ++ [])) := by
  simp only [expandToksWith]
  rw [if_neg hnv, hl]

theorem expandD_single_ref {env : Env} {name value text : String} {visited : List String}
    (hnv : ¬ name ∈ visited) (hl : lookupStr env name = some value)
    (ht : tokenize text.toList = [Tok.ref name]) (d : Nat) :
    expandD env (d + 1) text visited =
      match expandD env d value (name :: visited) with
      | none => none
      | some (.error e) => some (.error e)
      | some (.ok replaced) => some (.ok (replaced ++ [])) := by
  simp only [expandD]
  rw [ht, expandToksWith_single_ref hnv hl]

/-- Expanding a text that is exactly one reference token substitutes the
token with the full recursive expansion of the variable value, under the
visited set extended by the name — the recursive contract of the Python
`replace` callback. -/
theorem expand_variables_subst {env : Env} {name value text : String} {visited : List String}
    (hl : lookupStr env name = some value) (hnv : ¬ name ∈ visited)
    (ht : tokenize text.toList = [Tok.ref name]) :
    expand_variables text env visited = expand_variables value env (name :: visited) := by
  have hdec := unvisitedCount_decrease hl hnv
  cases hinner : expandD env (unvisitedCount env (name :: visited) + 1) value (name :: visited) with
  | none => exact absurd hinner (expandD_isSome _ _ _ (Nat.lt_succ_self _))
  | some r =>
    have h2 : expandD env (unvisitedCount env visited) value (name :: visited) = some r :=
      expandD_mono (by omega) hinner
    cases r with
    | error e =>
      have hL : expandD env (unvisitedCount env visited + 1) text visited =
          some (.error e) := by
        rw [expandD_single_ref hnv hl ht, h2]
      unfold expand_variables
      rw [hL, hinner]
    | ok replaced =>
      have hL : expandD env (unvisitedCount env visited + 1) text visited =
          some (.ok (replaced ++ [])) := by
        rw [expandD_single_ref hnv hl ht, h2]
      unfold expand_variables
      rw [hL, hinner]
      simp

/-! Characterisation of the not-found error: the reported name really is
absent from the environment. -/

theorem expandToksWith_notFound {env : Env} {n : String}
    {rec : String → List String → Option (Except ExpandError (List Char))}
    (hrec : ∀ value vs, rec value vs = some (.error (.notFound n)) → lookupStr env n = none) :
    ∀ (toks : List Tok) (visited : List String),
      expandToksWith env rec toks visited = some (.error (.notFound n)) →
      lookupStr env n = none := by
  intro toks
  induction toks with
  | nil => intro visited h; simp [expandToksWith] at h
  | cons t toks ih =>
    intro visited h
    cases t with
    | lit c =>
      simp only [expandToksWith] at h
      split at h
      · exact absurd h (by simp)
      · rename_i e heq
        cases h
        exact ih _ heq
      · exact absurd h (by simp)
    | ref name =>
      simp only [expandToksWith] at h
      split at h
      · simp at h
      · split at h
        · rename_i heq
          cases h
          exact heq
        · rename_i value heq
          split at h
          · exact absurd h (by simp)
          · rename_i e heqr
            cases h
            exact hrec _ _ heqr
          · rename_i replaced heqr
            split at h
            · exact absurd h (by simp)
            · rename_i e heq2
              cases h
              exact ih _ heq2
            · exact absurd h (by simp)

theorem expandD_notFound {env : Env} {n : String} :
    ∀ (d : Nat) (text : String) (visited : List String),
      expandD env d text visited = some (.error (.notFound n)) → lookupStr env n = none := by
  intro d
  induction d with
  | zero => intro text visited h; simp [expandD] at h
  | succ d ih =>
    intro text visited h
    exact expandToksWith_notFound (fun value vs hr => ih value vs hr) _ _ h

theorem expand_variables_notFound {text n : String} {env : Env} {visited : List String}
    (h : expand_variables text env visited = .error (.notFound n)) :
    lookupStr env n = none := by
  unfold expand_variables at h
  split at h
  · exact absurd h (by simp)
  · rename_i e heq
    cases h
    exact expandD_notFound _ _ _ heq
  · exact absurd h (by simp)

/-! Symbolic token matching, for statements about texts built around an
arbitrary name. -/

theorem takeWhile_append_all {α : Type} {p : α → Bool} :
    ∀ {l₁ : List α}, (∀ a ∈ l₁, p a = true) → ∀ l₂ : List α,
      (l₁ ++ l₂).takeWhile p = l₁ ++ l₂.takeWhile p := by
  intro l₁
  induction l₁ with
  | nil => intro _ l₂; simp
  | cons a l ih =>
    intro hall l₂
    have ha := hall a (List.mem_cons_self a l)
    have ht := ih (fun b hb => hall b (List.mem_cons_of_mem a hb)) l₂
    simp [List.takeWhile_cons, ha, ht]

theorem dropWhile_append_all {α : Type} {p : α → Bool} :
    ∀ {l₁ : List α}, (∀ a ∈ l₁, p a = true) → ∀ l₂ : List α,
      (l₁ ++ l₂).dropWhile p = l₂.dropWhile p := by
  intro l₁
  induction l₁ with
  | nil => intro _ l₂; simp
  | cons a l ih =>
    intro hall l₂
    have ha := hall a (List.mem_cons_self a l)
    have ht := ih (fun b hb => hall b (List.mem_cons_of_mem a hb)) l₂
    simp [List.dropWhile_cons, ha, ht]

theorem matchToken_not_dollar {c : Char} (hc : c ≠ '$') (rest : List Char) :
    matchToken (c :: rest) = none := by
  cases h : matchToken (c :: rest) with
  | none => rfl
  | some x =>
    obtain ⟨t, ht⟩ := matchToken_dollar h
    cases ht
    simp at hc

theorem matchToken_braced {name : String} (h1 : name.toList ≠ [])
    (h2 : ∀ c ∈ name.toList, c ≠ '\x7d') (rest : List Char) :
    matchToken ('$' :: '\x7b' :: (name.toList ++ '\x7d' :: rest)) = some (name, rest) := by
  have hall : ∀ c ∈ name.toList, (fun c => decide (c ≠ '\x7d')) c = true := by
    intro c hc
    simpa using h2 c hc
  have hd : ('\x7d' :: rest).dropWhile (fun c => decide (c ≠ '\x7d')) = '\x7d' :: rest := by
    simp [List.dropWhile_cons]
  have htk : ('\x7d' :: rest).takeWhile (fun c => decide (c ≠ '\x7d')) = [] := by
    simp [List.takeWhile_cons]
  simp only [matchToken, dropWhile_append_all hall, hd, takeWhile_append_all hall, htk,
    List.append_nil]
  cases hn : name.toList with
  | nil => exact absurd hn h1
  | cons a t =>
    have hmk : String.mk (a :: t) = name := by
      rw [← hn]
      rfl
    simp [hmk]


/-! Token decompositions of the texts used by the sibling-independence and
unterminated-reference claims. -/

theorem tokenize_double_ref {name : String} (h1 : name.toList ≠ [])
    (h2 : ∀ c ∈ name.toList, c ≠ '\x7d') :
    tokenize ('$' :: '\x7b' :: (name.toList ++ '\x7d' ::
        (' ' :: '$' :: '\x7b' :: (name.toList ++ ['\x7d'])))) =
      [Tok.ref name, Tok.lit ' ', Tok.ref name] := by
  rw [tokenize_cons_match (matchToken_braced h1 h2 _)]
  rw [tokenize_cons_none (matchToken_not_dollar (by decide) _)]
  rw [tokenize_cons_match (matchToken_braced h1 h2 _)]
  rfl

theorem expandToksWith_double_ref {env : Env}
    {rec : String → List String → Option (Except ExpandError (List Char))}
    {name value : String} {visited : List String}
    (hnv : ¬ name ∈ visited) (hl : lookupStr env name = some value)
    (hrec : rec value (name :: visited) = some (.ok value.toList)) :
    expandToksWith env rec [Tok.ref name, Tok.lit ' ', Tok.ref name] visited =
      some (.ok (value.toList ++ ' ' :: value.toList)) := by
  simp [expandToksWith, hnv, hl, hrec]

theorem dropWhile_eq_nil_of_all {α : Type} {p : α → Bool} :
    ∀ {l : List α}, (∀ a ∈ l, p a = true) → l.dropWhile p = [] := by
  intro l
  induction l with
  | nil => intro _; rfl
  | cons a t ih =>
    intro hall
    simp [List.dropWhile_cons, hall a (List.mem_cons_self a t),
      ih (fun b hb => hall b (List.mem_cons_of_mem a hb))]

theorem matchToken_unclosed {s : List Char} (hs : ¬ '\x7d' ∈ s) :
    matchToken ('$' :: '\x7b' :: s) = none := by
  have hd : s.dropWhile (fun c => decide (c ≠ '\x7d')) = [] :=
    dropWhile_eq_nil_of_all (by
      intro a ha
      simp only [decide_eq_true_eq]
      intro h
      exact hs (h ▸ ha))
  simp only [matchToken, hd]

theorem noToken_unclosed {s : List Char} (hd : ¬ '$' ∈ s) (hb : ¬ '\x7d' ∈ s) :
    tokenize ('$' :: '\x7b' :: s) = ('$' :: '\x7b' :: s).map Tok.lit := by
  rw [tokenize_cons_none (matchToken_unclosed hb)]
  rw [tokenize_cons_none (matchToken_not_dollar (by decide) _)]
  rw [tokenize_no_dollar s hd]
  rfl

/-! The claim theorems. -/

/-- Claim C1 (code evaluation at the failing input): with the provider of
the chained-resolution scenario (`indirect` holds `akv://vault2/actual`,
`actual` holds `final`), `SecretResolver.resolve` on `akv://vault1/indirect`
invokes the provider exactly once and returns the intermediate reference
`akv://vault2/actual` — it does not repeat the expand/check/parse/lookup
process, so it never reaches `final` after two invocations as the claim and
the unit test `test_resolver_uri_to_uri_resolution` require. -/
theorem c1_resolver_single_invocation :
    SecretResolver.resolveT [("akv", chainProvider)] "akv://vault1/indirect" [] =
      (.ok "akv://vault2/actual", [⟨"akv", "vault1", "indirect", none⟩]) ∧
    chainProvider ⟨"akv", "vault2", "actual", none⟩ = .ok "final" :=
  ⟨by decide, by decide⟩

/-- Claim C2 (code evaluation at the failing input): with the cyclic
provider (`secret1` holds `akv://vault/secret2` and vice versa),
`SecretResolver.resolve` on `akv://vault/secret1` returns the second
reference normally after a single provider invocation — no
`CircularReferenceError` is raised, contrary to the claim and the unit test
`test_resolver_circular_reference_detection`. -/
theorem c2_resolver_cycle_unreported :
    SecretResolver.resolveT [("akv", cycleProvider)] "akv://vault/secret1" [] =
      (.ok "akv://vault/secret2", [⟨"akv", "vault", "secret1", none⟩]) := by
  decide

/-- Claim C3: a value with no variable-reference token that is not a secret
URI resolves to itself, and re-resolving the result of that call returns it
unchanged. -/
theorem c3_resolve_idempotent :
    ∀ (providers : List (String × SecretProvider)) (env : Env) (v : String),
      noToken v → is_secret_uri v = false →
      SecretResolver.resolve providers v env = .ok v ∧
      ∀ w, SecretResolver.resolve providers v env = .ok w →
        SecretResolver.resolve providers w env = .ok w := by
  intro providers env v hnt hsu
  have h1 : SecretResolver.resolve providers v env = .ok v := by
    unfold SecretResolver.resolve SecretResolver.resolveT
    rw [expand_variables_noToken hnt]
    simp [hsu]
  refine ⟨h1, ?_⟩
  intro w hw
  rw [h1] at hw
  injection hw with heq
  subst heq
  exact h1

/-- Witness for C3 at the plain string of the passthrough unit test. -/
theorem c3_resolve_idempotent_witness :
    SecretResolver.resolve [] "just-a-plain-string" [] = .ok "just-a-plain-string" :=
  (c3_resolve_idempotent [] [] "just-a-plain-string" (by decide) (by decide)).1

/-- Claim C4: the expander returns token-free text unchanged, substitutes a
reference token with the full recursive expansion of the variable value, and
satisfies the four concrete specification examples, including preservation
of a bare dollar and nested expansion. -/
theorem c4_expansion_correctness :
    (∀ (env : Env) (visited : List String) (s : String), noToken s →
      expand_variables s env visited = .ok s) ∧
    (∀ (env : Env) (visited : List String) (name value text : String),
      lookupStr env name = some value → ¬ name ∈ visited →
      tokenize text.toList = [Tok.ref name] →
      expand_variables text env visited = expand_variables value env (name :: visited)) ∧
    expand_variables "$\x7bX\x7d" [("X", "a")] [] = .ok "a" ∧
    expand_variables "$X" [("X", "a")] [] = .ok "a" ∧
    expand_variables "price: $100" [] [] = .ok "price: $100" ∧
    expand_variables "$\x7bA\x7d" [("C", "3"), ("B", "2$\x7bC\x7d"), ("A", "1$\x7bB\x7d")] [] =
      .ok "123" := by
  refine ⟨?_, ?_, by decide, by decide, by decide, by decide⟩
  · intro env visited s hs
    exact expand_variables_noToken hs env visited
  · intro env visited name value text hl hnv ht
    exact expand_variables_subst hl hnv ht

/-- Witness for C4 at a token-free text and at a single-token text. -/
theorem c4_expansion_correctness_witness :
    expand_variables "plain text" [("VAR", "value")] [] = .ok "plain text" ∧
    expand_variables "$\x7bA\x7d" [("A", "$\x7bB\x7d"), ("B", "2")] [] =
      expand_variables "$\x7bB\x7d" [("A", "$\x7bB\x7d"), ("B", "2")] ["A"] :=
  ⟨c4_expansion_correctness.1 [("VAR", "value")] [] "plain text" (by decide),
   c4_expansion_correctness.2.1 [("A", "$\x7bB\x7d"), ("B", "2")] [] "A" "$\x7bB\x7d"
     "$\x7bA\x7d" (by decide) (by decide) (by decide)⟩

/-- Claim C5 (code evaluation at the failing input): at the cyclic
environment of the cycle-detection unit test, the code raises
`CircularReferenceError` carrying only the repeated name `A` and an empty
chain, so the exception message lacks the ordered chain `A -> B -> A` that
the claim and `test_circular_reference_raises_error` require. -/
theorem c5_circular_chain_empty :
    expand_variables "$\x7bA\x7d" [("A", "$\x7bB\x7d"), ("B", "$\x7bA\x7d")] [] =
      .error (.circular "A" []) ∧
    circularMessage "A" [] = "Circular reference detected: A" ∧
    circularMessage "A" [] ≠ "Circular reference detected: A -> B -> A" :=
  ⟨by decide, by decide, by decide⟩

/-- Claim C6: for every text, environment and visited set the expansion
succeeds at recursion depth one more than the number of distinct unvisited
environment names (so `expand_variables` terminates, returning a string or a
domain error), and each recursion into a value strictly decreases that
count because the visited set strictly grows. -/
theorem c6_termination_depth_bound :
    (∀ (text : String) (env : Env) (visited : List String),
      ∃ r : Except ExpandError (List Char),
        expandD env (unvisitedCount env visited + 1) text visited = some r) ∧
    (∀ (env : Env) (name value : String) (visited : List String),
      lookupStr env name = some value → ¬ name ∈ visited →
        unvisitedCount env (name :: visited) < unvisitedCount env visited) := by
  constructor
  · intro text env visited
    cases h : expandD env (unvisitedCount env visited + 1) text visited with
    | none => exact absurd h (expandD_isSome _ text visited (Nat.lt_succ_self _))
    | some r => exact ⟨r, rfl⟩
  · intro env name value visited hl hnv
    exact unvisitedCount_decrease hl hnv

/-- Witness for C6 at a one-name environment. -/
theorem c6_termination_depth_bound_witness :
    (∃ r : Except ExpandError (List Char),
      expandD [("A", "1")] (unvisitedCount [("A", "1")] [] + 1) "$\x7bA\x7d" [] = some r) ∧
    unvisitedCount [("A", "1")] ("A" :: []) < unvisitedCount [("A", "1")] [] :=
  ⟨c6_termination_depth_bound.1 "$\x7bA\x7d" [("A", "1")] [],
   c6_termination_depth_bound.2 [("A", "1")] "A" "1" [] (by decide) (by decide)⟩

/-- Claim C7: the missing-variable failure identifies exactly the missing
name: the specification example fails with not-found naming `MISSING`, and
any not-found error reported by the expander names a variable that really
has no entry in the environment. -/
theorem c7_missing_variable :
    expand_variables "$\x7bMISSING\x7d" [] [] = .error (.notFound "MISSING") ∧
    (∀ (text : String) (env : Env) (visited : List String) (n : String),
      expand_variables text env visited = .error (.notFound n) →
      lookupStr env n = none) := by
  refine ⟨by decide, ?_⟩
  intro text env visited n h
  exact expand_variables_notFound h

/-- Witness for C7: the name reported at the unit-test input is truly absent. -/
theorem c7_missing_variable_witness :
    lookupStr ([("A", "value")] : Env) "MISSING" = none :=
  c7_missing_variable.2 "$\x7bMISSING\x7d" [("A", "value")] [] "MISSING" (by decide)

/-- Claim C8: when the expanded input parses as a secret reference whose
scheme has no registered provider, `SecretResolver.resolve` fails with a
`SecretResolutionError` whose message names the unregistered scheme, and the
provider-invocation trace is empty. -/
theorem c8_unregistered_scheme :
    ∀ (providers : List (String × SecretProvider)) (env : Env)
      (uri expanded : String) (p : ParsedURI),
      expand_variables uri env [] = .ok expanded →
      is_secret_uri expanded = true →
      parse_secret_uri expanded = .ok p →
      lookupStr providers p.scheme = none →
      SecretResolver.resolveT providers uri env =
        (.error (.resolution ("No provider registered for scheme \x27" ++ p.scheme ++ "\x27")
          (p.scheme ++ "://...")), []) := by
  intro providers env uri expanded p he hs hp hl
  simp [SecretResolver.resolveT, SecretResolver._get_provider, he, hs, hp, hl]

/-- Witness for C8 with an empty provider registry. -/
theorem c8_unregistered_scheme_witness :
    SecretResolver.resolveT [] "akv://vault/secret" [] =
      (.error (.resolution "No provider registered for scheme \x27akv\x27" "akv://..."), []) := by
  have h := c8_unregistered_scheme [] [] "akv://vault/secret" "akv://vault/secret"
    ⟨"akv", "vault", "secret", none⟩ (by decide) (by decide) (by decide) rfl
  exact h

/-- Claim C9: expansion extends the visited set by copy, so the extension
made while expanding one token does not leak into sibling tokens — a text
referencing the same plainly-bound variable twice at the same level expands
both occurrences rather than reporting a cycle.  (In this embedding the
environment and caller visited set are values, never mutated.) -/
theorem c9_sibling_independence :
    ∀ (env : Env) (visited : List String) (name value : String),
      lookupStr env name = some value → noToken value → ¬ name ∈ visited →
      name.toList ≠ [] → (∀ c ∈ name.toList, c ≠ '\x7d') →
      expand_variables ("$\x7b" ++ name ++ "\x7d $\x7b" ++ name ++ "\x7d") env visited =
        .ok (value ++ " " ++ value) := by
  intro env visited name value hl hv hnv h1 h2
  have e1 : ("$\x7b" : String).data = ['$', '\x7b'] := rfl
  have e2 : ("\x7d $\x7b" : String).data = ['\x7d', ' ', '$', '\x7b'] := rfl
  have e3 : ("\x7d" : String).data = ['\x7d'] := rfl
  have hcs : ("$\x7b" ++ name ++ "\x7d $\x7b" ++ name ++ "\x7d").toList =
      '$' :: '\x7b' :: (name.toList ++ '\x7d' ::
        (' ' :: '$' :: '\x7b' :: (name.toList ++ ['\x7d']))) := by
    simp [String.toList, String.data_append, e1, e2, e3]
  have hu : 1 ≤ unvisitedCount env visited := unvisitedCount_pos hl hnv
  have hrec : expandD env (unvisitedCount env visited) value (name :: visited) =
      some (.ok value.toList) := expandD_noToken hu hv _
  have hL : expandD env (unvisitedCount env visited + 1)
      ("$\x7b" ++ name ++ "\x7d $\x7b" ++ name ++ "\x7d") visited =
      some (.ok (value.toList ++ ' ' :: value.toList)) := by
    simp only [expandD]
    rw [hcs, tokenize_double_ref h1 h2]
    exact expandToksWith_double_ref hnv hl hrec
  unfold expand_variables
  rw [hL]
  have hstr : String.mk (value.toList ++ ' ' :: value.toList) = value ++ " " ++ value := by
    have : value ++ " " ++ value = String.mk ((value.data ++ [' ']) ++ value.data) := rfl
    rw [this]
    exact congrArg String.mk (by simp)
  show Except.ok (String.mk (value.toList ++ ' ' :: value.toList)) =
    Except.ok (value ++ " " ++ value)
  rw [hstr]

/-- Witness for C9: the doubled reference of a one-name environment. -/
theorem c9_sibling_independence_witness :
    expand_variables ("$\x7b" ++ "A" ++ "\x7d $\x7b" ++ "A" ++ "\x7d") [("A", "a")] [] =
      .ok ("a" ++ " " ++ "a") :=
  c9_sibling_independence [("A", "a")] [] "A" "a" (by decide) (by decide) (by decide)
    (by decide) (by decide)

/-- Claim C10: an unterminated braced reference (no closing brace after the
opening `$\x7b`) and the empty-name form `$\x7b\x7d` do not match the token
grammar and pass through expansion verbatim, with no error, for every
environment. -/
theorem c10_unclosed_braces :
    (∀ (env : Env) (visited : List String) (s : String),
      ¬ '$' ∈ s.toList → ¬ '\x7d' ∈ s.toList →
      expand_variables ("$\x7b" ++ s) env visited = .ok ("$\x7b" ++ s)) ∧
    (∀ (env : Env) (visited : List String),
      expand_variables "$\x7b\x7d" env visited = .ok "$\x7b\x7d") := by
  constructor
  · intro env visited s hd hb
    have hnt : noToken ("$\x7b" ++ s) := by
      unfold noToken
      have hls : ("$\x7b" ++ s).toList = '$' :: '\x7b' :: s.toList := by
        show ("$\x7b" ++ s).data = _
        rw [String.data_append]
        rfl
      rw [hls]
      exact noToken_unclosed hd hb
    exact expand_variables_noToken hnt env visited
  · intro env visited
    exact expand_variables_noToken (by decide) env visited

/-- Witness for C10 at the literal inputs of the claim. -/
theorem c10_unclosed_braces_witness :
    expand_variables ("$\x7b" ++ "NAME") [] [] = .ok ("$\x7b" ++ "NAME") ∧
    expand_variables "$\x7b\x7d" [("A", "1")] ["B"] = .ok "$\x7b\x7d" :=
  ⟨c10_unclosed_braces.1 [] [] "NAME" (by decide) (by decide),
   c10_unclosed_braces.2 [("A", "1")] ["B"]⟩

end EnvResolve
